import Mathlib

/-!
Verification of the FleaHive summarizer (`FleaHive.py`).

The pipeline is embedded shallowly over `List Char`:
* `clean` models the eight normalization stages of `clean(text)` (regex
  substitutions are modeled as explicit left-to-right scanners with the
  same matching semantics as CPython `re`);
* `summarize` models `summarize(text, max_len)` in keyword mode (the
  embedding model is absent, i.e. `model = None`);
* `tag` models `tag(text, top)`;
* `formatPercent1` models the `f"{x:.1%}"` metric formatting by exact
  rational rounding (round-half-to-even), which agrees with the binary
  floating-point computation on every input evaluated in this file.

Python's `\w` character class is modeled on its ASCII range
(letters, digits, underscore), and `\s` as the six ASCII whitespace
characters; all concrete inputs evaluated here are ASCII.
-/

set_option maxRecDepth 40000
set_option maxHeartbeats 4000000

namespace FleaHive

/-- ASCII whitespace, as matched by Python `\s` / `str.strip()`. -/
def isPySpace (c : Char) : Bool :=
  c == ' ' || c == '\t' || c == '\n' || c == '\r' || c == '\x0b' || c == '\x0c'

/-- Python `str.strip()`: drop leading and trailing whitespace. -/
def pyStrip (cs : List Char) : List Char :=
  ((cs.dropWhile isPySpace).reverse.dropWhile isPySpace).reverse

/-- Case-insensitive literal prefix match (the pattern is given lowercase);
returns the remainder after the matched prefix.  Models `(?i)` literals. -/
def ciPref : List Char → List Char → Option (List Char)
  | [], l => some l
  | _ :: _, [] => none
  | p :: ps, c :: cs => if c.toLower == p then ciPref ps cs else none

/-- Split at the first occurrence of `stop`: returns the (possibly empty)
run of non-`stop` characters and the remainder after `stop`.
Models a greedy `[^X]*` followed by the literal `X`. -/
def splitAtChar (stop : Char) : List Char → Option (List Char × List Char)
  | [] => none
  | c :: t =>
    if c == stop then some ([], t)
    else
      match splitAtChar stop t with
      | some (l, r) => some (c :: l, r)
      | none => none

/-! ### Stage 1 — frontmatter removal: `re.sub(r'(?m)^---[\s\S]+?---', '', text)` -/

/-- Does the list start with three literal dashes? -/
def hasDashes3 : List Char → Bool
  | a :: b :: c :: _ => a == '-' && b == '-' && c == '-'
  | _ => false

/-- Search for the earliest closing `---` (non-greedy `[\s\S]*?---` step);
returns the remainder after it. -/
def closeSearch : List Char → Option (List Char)
  | [] => none
  | l@(_ :: t) => if hasDashes3 l then some (l.drop 3) else closeSearch t

/-- After an opening `---`, consume `[\s\S]+?---` (at least one character,
then the earliest closing `---`); returns the remainder. -/
def dropAfterClose : List Char → Option (List Char)
  | [] => none
  | _ :: t => closeSearch t

/-- One left-to-right `re.sub` scan for `(?m)^---[\s\S]+?---`.
`atStart` records whether the current position is a line start
(position 0 or preceded by a newline).  The fuel argument only bounds
recursion; every step consumes at least one character, so the initial
fuel `length + 1` is never exhausted. -/
def rfGoF : Nat → Bool → List Char → List Char
  | 0, _, cs => cs
  | _ + 1, _, [] => []
  | fuel + 1, atStart, c :: rest =>
    if atStart && hasDashes3 (c :: rest) then
      match dropAfterClose ((c :: rest).drop 3) with
      | some rem => rfGoF fuel false rem
      | none => c :: rfGoF fuel (c == '\n') rest
    else c :: rfGoF fuel (c == '\n') rest

/-- Frontmatter scan starting in line-start state `b`. -/
def rfScan (b : Bool) (cs : List Char) : List Char :=
  rfGoF (cs.length + 1) b cs

/-- Stage 1 of `clean`: `re.sub(r'(?m)^---[\s\S]+?---', '', text)`. -/
def removeFrontmatter (cs : List Char) : List Char :=
  rfScan true cs

/-! ### Stage 2 — markdown links: `re.sub(r'\[([^\]]+)\]\([^\)]+\)', r'\1', text)` -/

/-- `([^\]]+)\]`: nonempty label up to the first `]`. -/
def takeLabel (l : List Char) : Option (List Char × List Char) :=
  match splitAtChar ']' l with
  | some ([], _) => none
  | some (lb, r) => some (lb, r)
  | none => none

/-- `[^\)]+\)`: nonempty target up to the first `)`; returns the remainder. -/
def takeTarget (l : List Char) : Option (List Char) :=
  match splitAtChar ')' l with
  | some ([], _) => none
  | some (_, r) => some r
  | none => none

/-- `re.sub` scan for `\[([^\]]+)\]\([^\)]+\)` replaced by the label. -/
def linkGoF : Nat → List Char → List Char
  | 0, cs => cs
  | _ + 1, [] => []
  | fuel + 1, c :: rest =>
    if c == '[' then
      match takeLabel rest with
      | some (label, '(' :: rest3) =>
        match takeTarget rest3 with
        | some rest4 => label ++ linkGoF fuel rest4
        | none => c :: linkGoF fuel rest
      | some (_, _) => c :: linkGoF fuel rest
      | none => c :: linkGoF fuel rest
    else c :: linkGoF fuel rest

/-- Stage 2 of `clean`. -/
def linkScan (cs : List Char) : List Char :=
  linkGoF (cs.length + 1) cs

/-! ### Stage 3 — citation noise:
`re.sub(r'(?i)@article{[^}]+}|https?://\S+|doi:\S+', '', text)` -/

/-- `\S+`: a nonempty greedy run of non-whitespace; returns the remainder. -/
def takeNonSpace (l : List Char) : Option (List Char) :=
  if (l.takeWhile (fun c => !(isPySpace c))).isEmpty then none
  else some (l.dropWhile (fun c => !(isPySpace c)))

/-- Alternative 1: `@article{[^}]+}` (case-insensitive literal part). -/
def matchArticle (l : List Char) : Option (List Char) :=
  match ciPref ("@article\x7b".data) l with
  | some r =>
    match splitAtChar '\x7d' r with
    | some ([], _) => none
    | some (_, r2) => some r2
    | none => none
  | none => none

/-- Alternative 2: `https?://\S+` (case-insensitive literal part). -/
def matchHttp (l : List Char) : Option (List Char) :=
  match ciPref ("http".data) l with
  | some r =>
    let r1 := match r with
      | c :: t => if c.toLower == 's' then t else r
      | [] => r
    match ciPref ("://".data) r1 with
    | some r2 => takeNonSpace r2
    | none => none
  | none => none

/-- Alternative 3: `doi:\S+` (case-insensitive literal part). -/
def matchDoi (l : List Char) : Option (List Char) :=
  match ciPref ("doi:".data) l with
  | some r => takeNonSpace r
  | none => none

/-- `re.sub` scan for the citation/URL/doi alternation, replaced by nothing.
Alternatives are tried in pattern order at each position. -/
def noiseGoF : Nat → List Char → List Char
  | 0, cs => cs
  | _ + 1, [] => []
  | fuel + 1, c :: rest =>
    match matchArticle (c :: rest) with
    | some rem => noiseGoF fuel rem
    | none =>
      match matchHttp (c :: rest) with
      | some rem => noiseGoF fuel rem
      | none =>
        match matchDoi (c :: rest) with
        | some rem => noiseGoF fuel rem
        | none => c :: noiseGoF fuel rest

/-- Stage 3 of `clean`. -/
def noiseScan (cs : List Char) : List Char :=
  noiseGoF (cs.length + 1) cs

/-! ### Stage 4 — images: `re.sub(r'!\[.*?\]\([^\)]+\)', '', text)` -/

/-- After `![`, find a `]` (the non-greedy `.*?` may not cross a newline and
backtracks past candidate `]`s whose continuation fails) followed by
`(`, a nonempty `[^\)]+` and `)`; returns the remainder after `)`. -/
def tryImgFrom : List Char → Option (List Char)
  | [] => none
  | c :: t =>
    if c == '\n' then none
    else if c == ']' then
      match
        (match t with
         | '(' :: r2 =>
           (match splitAtChar ')' r2 with
            | some ([], _) => none
            | some (_, r3) => some r3
            | none => none)
         | _ => none) with
      | some r3 => some r3
      | none => tryImgFrom t
    else tryImgFrom t

/-- Attempt an image match directly after the `!`. -/
def tryImg : List Char → Option (List Char)
  | '[' :: r => tryImgFrom r
  | _ => none

/-- `re.sub` scan for `!\[.*?\]\([^\)]+\)` replaced by nothing. -/
def imgGoF : Nat → List Char → List Char
  | 0, cs => cs
  | _ + 1, [] => []
  | fuel + 1, c :: rest =>
    if c == '!' then
      match tryImg rest with
      | some rem => imgGoF fuel rem
      | none => c :: imgGoF fuel rest
    else c :: imgGoF fuel rest

/-- Stage 4 of `clean`. -/
def imgScan (cs : List Char) : List Char :=
  imgGoF (cs.length + 1) cs

/-! ### Stage 5 — markdown symbols: `re.sub(r'[*#>`~]', '', text)` -/

/-- Stage 5 of `clean`: drop every `*`, `#`, `>`, backtick, `~`. -/
def stripSymbols (cs : List Char) : List Char :=
  cs.filter (fun c => !(c == '*' || c == '#' || c == '>' || c == '\x60' || c == '~'))

/-! ### Stage 6 — structural noise:
`re.sub(r'^Table\s*\d+.*|^Figure\s*\d+.*', '', text, flags=re.M|re.I)` -/

/-- At a line start, try `Table\s*\d+.*` then `Figure\s*\d+.*`
(case-insensitive; `\s*` may cross newlines, `.*` stops at the newline);
returns the remainder after the match. -/
def tableFigureMatch (l : List Char) : Option (List Char) :=
  let tryWord : List Char → Option (List Char) := fun w =>
    match ciPref w l with
    | some r =>
      match r.dropWhile isPySpace with
      | c :: t =>
        if c.isDigit then
          some ((t.dropWhile Char.isDigit).dropWhile (fun d => !(d == '\n')))
        else none
      | [] => none
    | none => none
  match tryWord ("table".data) with
  | some r => some r
  | none => tryWord ("figure".data)

/-- `re.sub` scan for the Table/Figure line pattern. -/
def tfGoF : Nat → Bool → List Char → List Char
  | 0, _, cs => cs
  | _ + 1, _, [] => []
  | fuel + 1, atStart, c :: rest =>
    if atStart then
      match tableFigureMatch (c :: rest) with
      | some rem => tfGoF fuel false rem
      | none => c :: tfGoF fuel (c == '\n') rest
    else c :: tfGoF fuel (c == '\n') rest

/-- Stage 6 of `clean`. -/
def tfScan (cs : List Char) : List Char :=
  tfGoF (cs.length + 1) true cs

/-! ### Stage 7 — references cutoff:
`re.search(r'(?i)\n\s*(references|bibliography|appendix)\s*\n', text)`,
then `text[:cutoff.start()]`. -/

/-- Does the pattern match starting exactly here (at a newline)? -/
def matchRefLine (l : List Char) : Bool :=
  match l with
  | '\n' :: r =>
    let r2 := r.dropWhile isPySpace
    let tryW : List Char → Bool := fun w =>
      match ciPref w r2 with
      | some r3 => (r3.takeWhile isPySpace).contains '\n'
      | none => false
    tryW ("references".data) || tryW ("bibliography".data) || tryW ("appendix".data)
  | _ => false

/-- Index of the leftmost match of the cutoff pattern. -/
def cutIndex : List Char → Option Nat
  | [] => none
  | l@(_ :: t) => if matchRefLine l then some 0 else (cutIndex t).map (· + 1)

/-- Stage 7 of `clean`: truncate at the leftmost cutoff-pattern match. -/
def refCut (cs : List Char) : List Char :=
  match cutIndex cs with
  | some p => cs.take p
  | none => cs

/-- `clean(text)`: the eight stages in source order. -/
def clean (cs : List Char) : List Char :=
  pyStrip (refCut (tfScan (stripSymbols (imgScan (noiseScan (linkScan (removeFrontmatter cs)))))))

/-! ### Tokenizer, counter and stable descending sort -/

/-- Python `\w` on its ASCII range: letters, digits, underscore. -/
def isWordChar (c : Char) : Bool :=
  c.isAlphanum || c == '_'

/-- `str.lower()` character-wise. -/
def lowerL (cs : List Char) : List Char :=
  cs.map Char.toLower

/-- `re.findall(r'\w+', ·)`: maximal runs of word characters, in order.
`cur` is the current run, reversed. -/
def findWordsGo (cur : List Char) : List Char → List (List Char)
  | [] => if cur.isEmpty then [] else [cur.reverse]
  | c :: rest =>
    if isWordChar c then findWordsGo (c :: cur) rest
    else if cur.isEmpty then findWordsGo [] rest
    else cur.reverse :: findWordsGo [] rest

/-- `re.findall(r'\w+', cs)`. -/
def findWords (cs : List Char) : List (List Char) :=
  findWordsGo [] cs

/-- One `Counter` update: increment the count of `w`, appending a fresh
key at the end (`Counter` preserves first-insertion order of keys). -/
def bump (w : List Char) : List (List Char × Nat) → List (List Char × Nat)
  | [] => [(w, 1)]
  | p :: t => if p.1 = w then (p.1, p.2 + 1) :: t else p :: bump w t

/-- `Counter(ws).items()`: counts with keys in first-occurrence order. -/
def counterItems (ws : List (List Char)) : List (List Char × Nat) :=
  ws.foldl (fun acc w => bump w acc) []

/-- Insert `x` before the first entry `h` with `le h x` (a stable
descending insertion step). -/
def insertBy (le : α → α → Bool) (x : α) : List α → List α
  | [] => [x]
  | h :: t => if le h x then x :: h :: t else h :: insertBy le x t

/-- Stable descending insertion sort: models CPython's stable `sorted`
with `reverse=True` (equal elements keep their encounter order). -/
def sortBy (le : α → α → Bool) : List α → List α
  | [] => []
  | h :: t => insertBy le h (sortBy le t)

/-- Comparison by count, for `Counter.most_common` /
`sorted(key=itemgetter(1), reverse=True)`. -/
def countLe (a b : List Char × Nat) : Bool :=
  a.2 ≤ b.2

/-- `Counter(ws).most_common(n)`: count-descending, ties in
first-encounter order. -/
def mostCommon (n : Nat) (items : List (List Char × Nat)) : List (List Char × Nat) :=
  (sortBy countLe items).take n

/-- Python tuple order on `(score, sentence)` pairs: score first, then
lexicographic code-point order on the text. -/
def listLe : List Char → List Char → Bool
  | [], _ => true
  | _ :: _, [] => false
  | x :: xs, y :: ys =>
    if x.toNat < y.toNat then true
    else if y.toNat < x.toNat then false
    else listLe xs ys

/-- `(a, s) <= (b, t)` as Python compares the ranked tuples. -/
def pairLe (a b : Nat × List Char) : Bool :=
  if a.1 < b.1 then true
  else if b.1 < a.1 then false
  else listLe a.2 b.2

/-- `sorted(ranked, reverse=True)` on `(score, sentence)` tuples. -/
def sortPD (l : List (Nat × List Char)) : List (Nat × List Char) :=
  sortBy pairLe l

/-! ### Tag extractor: `tag(text, top=8)` -/

/-- The fixed stop-word set of `tag`. -/
def stopWords : List (List Char) :=
  ["the".data, "and".data, "for".data, "with".data, "this".data, "that".data,
   "from".data, "were".data, "been".data, "have".data, "using".data, "used".data,
   "which".data, "their".data, "they".data, "will".data, "would".data, "there".data,
   "these".data, "about".data, "when".data, "what".data, "where".data,
   "is".data, "are".data, "was".data, "not".data, "but".data, "all".data,
   "into".data, "can".data, "has".data, "more".data, "one".data, "its".data,
   "out".data, "also".data, "than".data, "other".data, "some".data, "very".data,
   "only".data, "time".data, "just".data, "even".data, "most".data, "like".data,
   "may".data, "such".data, "each".data, "new".data, "based".data, "our".data,
   "results".data, "study".data, "method".data, "approach".data, "proposed".data]

/-- Candidate tag tokens: word tokens of the lowercased text that are not
stop words and are longer than 3 characters.  (The source computes this
list twice in a row; the repetition has no effect.) -/
def tagCandidates (t : List Char) : List (List Char) :=
  (findWords (lowerL t)).filter (fun w => !(stopWords.contains w) && decide (3 < w.length))

/-- `tag(text, top)`: keys of the `top` most common candidate tokens. -/
def tag (t : List Char) (top : Nat) : List (List Char) :=
  (mostCommon top (counterItems (tagCandidates t))).map Prod.fst

/-! ### Segmentation, scoring and budgeted selection: `summarize(text, max_len=450)` -/

/-- Sentence separators: the class `[.!?]`. -/
def isSep (c : Char) : Bool :=
  c == '.' || c == '!' || c == '?'

/-- `re.split(r'[.!?]+', ·)`: fragments between maximal separator runs
(with empty boundary fragments, as `re.split` produces). -/
def srGo (inSep : Bool) (cur : List Char) : List Char → List (List Char)
  | [] => [cur.reverse]
  | c :: rest =>
    if isSep c then
      if inSep then srGo true [] rest
      else cur.reverse :: srGo true [] rest
    else srGo false (c :: cur) rest

/-- `re.split(r'[.!?]+', cs)`. -/
def splitRuns (cs : List Char) : List (List Char) :=
  srGo false [] cs

/-- `[s.strip() for s in re.split(r'[.!?]+', cs) if len(s.strip()) > 20]`. -/
def segment (cs : List Char) : List (List Char) :=
  ((splitRuns cs).map pyStrip).filter (fun s => decide (20 < s.length))

/-- The candidate sentences of the cleaned input. -/
def sentencesOf (t : List Char) : List (List Char) :=
  segment (clean t)

/-- `re.findall(r'\w+', text.lower())` over the cleaned input. -/
def docWords (t : List Char) : List (List Char) :=
  findWords (lowerL (clean t))

/-- `{w for w, c in Counter(words).most_common(20) if len(w) > 4}`.
The Python set is modeled as the (duplicate-free) list of qualifying
keys; the score below is a count over it, so order is irrelevant. -/
def commonOf (t : List Char) : List (List Char) :=
  (mostCommon 20 (counterItems (docWords t))).filterMap
    (fun p => if 4 < p.1.length then some p.1 else none)

/-- Python's substring test `p in s`. -/
def isSubstr (p : List Char) : List Char → Bool
  | [] => p.isEmpty
  | l@(_ :: t) => p.isPrefixOf l || isSubstr p t

/-- `sum(w[:5] in s.lower() for w in common)`. -/
def scoreOf (t s : List Char) : Nat :=
  ((commonOf t).filter (fun w => isSubstr (w.take 5) (lowerL s))).length

/-- `[(score(s), s) for s in sentences]`, in input order. -/
def scoredOf (t : List Char) : List (Nat × List Char) :=
  (sentencesOf t).map (fun s => (scoreOf t s, s))

/-- The greedy selection loop: take a sentence while the running
character count stays within the budget; stop at the first overflow. -/
def greedy : List (Nat × List Char) → Nat → Nat → List (List Char)
  | [], _, _ => []
  | (_, s) :: rest, budget, used =>
    if used + s.length ≤ budget then s :: greedy rest budget (used + s.length)
    else []

/-- `" ".join(result)`. -/
def joinSpace : List (List Char) → List Char
  | [] => []
  | [s] => s
  | s :: rest => s ++ ' ' :: joinSpace rest

/-- Sort descending, select greedily, join with single spaces
(lines 50/54 and 56-63 of the source). -/
def selectJoin (pairs : List (Nat × List Char)) (budget : Nat) : List Char :=
  joinSpace (greedy (sortPD pairs) budget 0)

/-- The literal returned when segmentation is empty. -/
def noSentencesMsg : List Char :=
  "Nothing to summarize after cleaning.".data

/-- `summarize(text, max_len)` in keyword mode (`model = None`).
The final `or` models Python truthiness: the fallback fires exactly
when the joined string is empty. -/
def summarize (t : List Char) (maxLen : Nat := 450) : List Char :=
  if sentencesOf t = [] then noSentencesMsg
  else
    let j := selectJoin (scoredOf t) maxLen
    if j = [] then (clean t).take maxLen ++ ['…'] else j

/-! ### Metrics: word counts and `f"{len(summary)/max(len(text),1):.1%}"` -/

/-- Round `num * 1000 / den` to the nearest integer, half to even:
the exact-rational counterpart of the float `num/den` formatted by
`.1%` (they agree on every input evaluated in this file). -/
def permilleRound (num den : Nat) : Nat :=
  let q := num * 1000 / den
  let r := num * 1000 % den
  if 2 * r < den then q
  else if den < 2 * r then q + 1
  else if q % 2 = 0 then q else q + 1

/-- `f"{num/den:.1%}"` via exact rational rounding. -/
def formatPercent1 (num den : Nat) : List Char :=
  let x := permilleRound num den
  Nat.toDigits 10 (x / 10) ++ '.' :: Nat.toDigits 10 (x % 10) ++ ['%']

/-- The `compression` metric of the result record. -/
def compressionOf (t : List Char) : List Char :=
  formatPercent1 (summarize t 450).length (max t.length 1)

/-- The full result record of one run: summary, tags over
`summary + text`, and the three metrics. -/
def runAll (t : List Char) :
    List Char × List (List Char) × Nat × Nat × List Char :=
  let s := summarize t 450
  (s, tag (s ++ t) 8, (findWords t).length, (findWords s).length,
   formatPercent1 s.length (max t.length 1))

/-! ## Lemmas about the stable descending insertion sort -/

theorem insertBy_perm (le : α → α → Bool) (x : α) :
    ∀ l : List α, (insertBy le x l).Perm (x :: l) := by
  intro l
  induction l with
  | nil => simp [insertBy]
  | cons h t ih =>
    by_cases hle : le h x = true
    · simp [insertBy, hle]
    · simp only [insertBy, hle, if_neg, Bool.not_eq_true]
      exact (List.Perm.cons h ih).trans (List.Perm.swap x h t)

theorem sortBy_perm (le : α → α → Bool) : ∀ l : List α, (sortBy le l).Perm l := by
  intro l
  induction l with
  | nil => simp [sortBy]
  | cons h t ih =>
    exact ((insertBy_perm le h (sortBy le t)).trans (List.Perm.cons h ih))

theorem insertBy_pairwise (le : α → α → Bool)
    (total : ∀ a b, le a b = true ∨ le b a = true)
    (tr : ∀ a b c, le a b = true → le b c = true → le a c = true)
    (x : α) :
    ∀ l : List α, l.Pairwise (fun a b => le b a = true) →
      (insertBy le x l).Pairwise (fun a b => le b a = true) := by
  intro l
  induction l with
  | nil => intro _; simp [insertBy]
  | cons h t ih =>
    intro hp
    rw [List.pairwise_cons] at hp
    by_cases hle : le h x = true
    · simp only [insertBy, hle, if_pos]
      refine List.Pairwise.cons ?_ (List.Pairwise.cons hp.1 hp.2)
      intro y hy
      rcases List.mem_cons.mp hy with rfl | hyt
      · exact hle
      · exact tr y h x (hp.1 y hyt) hle
    · simp only [insertBy, hle, if_neg, Bool.not_eq_true]
      refine List.Pairwise.cons ?_ (ih hp.2)
      intro y hy
      rcases List.mem_cons.mp ((insertBy_perm le x t).mem_iff.mp hy) with rfl | hyt
      · rcases total h y with hh | hh
        · exact absurd hh (by simpa using hle)
        · exact hh
      · exact hp.1 y hyt

theorem sortBy_pairwise (le : α → α → Bool)
    (total : ∀ a b, le a b = true ∨ le b a = true)
    (tr : ∀ a b c, le a b = true → le b c = true → le a c = true) :
    ∀ l : List α, (sortBy le l).Pairwise (fun a b => le b a = true) := by
  intro l
  induction l with
  | nil => simp [sortBy]
  | cons h t ih => exact insertBy_pairwise le total tr h (sortBy le t) ih

theorem insertBy_decomp (le : α → α → Bool) (x : α) :
    ∀ l : List α, ∃ l₁ l₂, l = l₁ ++ l₂ ∧ insertBy le x l = l₁ ++ x :: l₂ := by
  intro l
  induction l with
  | nil => exact ⟨[], [], rfl, rfl⟩
  | cons h t ih =>
    by_cases hle : le h x = true
    · exact ⟨[], h :: t, rfl, by simp [insertBy, hle]⟩
    · obtain ⟨m₁, m₂, hm, hi⟩ := ih
      exact ⟨h :: m₁, m₂, by simp [hm], by simp [insertBy, hle, hi]⟩

theorem sublist_insertBy (le : α → α → Bool) (x : α) {s l : List α}
    (h : s.Sublist l) : s.Sublist (insertBy le x l) := by
  obtain ⟨l₁, l₂, hm, hi⟩ := insertBy_decomp le x l
  rw [hi]
  refine h.trans ?_
  rw [hm]
  exact List.Sublist.append_left (List.sublist_cons_self x l₂) l₁

theorem insertBy_before (le : α → α → Bool) {x b : α} (hb : le b x = true) :
    ∀ m : List α, b ∈ m → [x, b].Sublist (insertBy le x m) := by
  intro m
  induction m with
  | nil => intro h; exact absurd h (List.not_mem_nil b)
  | cons e t ih =>
    intro hbm
    by_cases hle : le e x = true
    · simp only [insertBy, hle, if_pos]
      exact List.Sublist.cons₂ x (List.singleton_sublist.mpr hbm)
    · simp only [insertBy, hle, if_neg, Bool.not_eq_true]
      rcases List.mem_cons.mp hbm with rfl | hbt
      · exact absurd hb (by simpa using hle)
      · exact List.Sublist.cons e (ih hbt)

theorem sortBy_stable (le : α → α → Bool) {a b : α} (hab : le b a = true) :
    ∀ l : List α, [a, b].Sublist l → [a, b].Sublist (sortBy le l) := by
  intro l
  induction l with
  | nil => intro h; cases h
  | cons h t ih =>
    intro hs
    cases hs with
    | cons _ hs' => exact sublist_insertBy le h (ih hs')
    | cons₂ _ hs' =>
      have hbmem : b ∈ sortBy le t :=
        (sortBy_perm le t).mem_iff.mpr (List.singleton_sublist.mp hs')
      exact insertBy_before le hab (sortBy le t) hbmem

/-! ## Totality and transitivity of the two comparison relations -/

theorem listLe_total : ∀ a b : List Char, listLe a b = true ∨ listLe b a = true := by
  intro a
  induction a with
  | nil => intro b; left; rfl
  | cons x xs ih =>
    intro b
    cases b with
    | nil => right; rfl
    | cons y ys =>
      by_cases h1 : x.toNat < y.toNat
      · left; simp [listLe, h1]
      · by_cases h2 : y.toNat < x.toNat
        · right; simp [listLe, h2]
        · rcases ih ys with h | h
          · left; simp [listLe, h1, h2, h]
          · right; simp [listLe, h1, h2, h]

theorem listLe_trans :
    ∀ a b c : List Char, listLe a b = true → listLe b c = true → listLe a c = true := by
  intro a
  induction a with
  | nil => intro b c _ _; rfl
  | cons x xs ih =>
    intro b c hab hbc
    cases b with
    | nil => simp [listLe] at hab
    | cons y ys =>
      cases c with
      | nil => simp [listLe] at hbc
      | cons z zs =>
        simp only [listLe] at hab hbc ⊢
        split_ifs at hab hbc ⊢ with h1 h2 h3 h4 h5 h6 <;>
          first
          | rfl
          | omega
          | exact ih ys zs hab hbc

theorem pairLe_total : ∀ a b : Nat × List Char, pairLe a b = true ∨ pairLe b a = true := by
  intro a b
  by_cases h1 : a.1 < b.1
  · left; simp [pairLe, h1]
  · by_cases h2 : b.1 < a.1
    · right; simp [pairLe, h2]
    · rcases listLe_total a.2 b.2 with h | h
      · left; simp [pairLe, h1, h2, h]
      · right; simp [pairLe, h1, h2, h]

theorem pairLe_trans :
    ∀ a b c : Nat × List Char, pairLe a b = true → pairLe b c = true → pairLe a c = true := by
  intro a b c hab hbc
  simp only [pairLe] at hab hbc ⊢
  split_ifs at hab hbc ⊢ with h1 h2 h3 h4 h5 h6 <;>
    first
    | rfl
    | omega
    | exact listLe_trans a.2 b.2 c.2 hab hbc

theorem countLe_total : ∀ a b : List Char × Nat, countLe a b = true ∨ countLe b a = true := by
  intro a b
  simp only [countLe, decide_eq_true_eq]
  omega

theorem countLe_trans :
    ∀ a b c : List Char × Nat, countLe a b = true → countLe b c = true → countLe a c = true := by
  intro a b c
  simp only [countLe, decide_eq_true_eq]
  omega

/-! ## Lemmas about greedy selection and joining -/

/-- Total character length of a list of sentences (no separators). -/
def sumLens (l : List (List Char)) : Nat :=
  (l.map List.length).sum

theorem greedy_sum_le :
    ∀ (l : List (Nat × List Char)) (b u : Nat), u ≤ b → u + sumLens (greedy l b u) ≤ b := by
  intro l
  induction l with
  | nil => intro b u hu; simpa [greedy, sumLens] using hu
  | cons p rest ih =>
    intro b u hu
    obtain ⟨sc, s⟩ := p
    by_cases h : u + s.length ≤ b
    · have := ih b (u + s.length) h
      simp only [greedy, h, if_pos, sumLens, List.map_cons, List.sum_cons] at *
      omega
    · simp [greedy, h, sumLens]; omega

theorem greedy_mem :
    ∀ (l : List (Nat × List Char)) (b u : Nat) (s : List Char),
      s ∈ greedy l b u → ∃ p ∈ l, p.2 = s := by
  intro l
  induction l with
  | nil => intro b u s h; simp [greedy] at h
  | cons p rest ih =>
    intro b u s h
    obtain ⟨sc, t⟩ := p
    by_cases hc : u + t.length ≤ b
    · simp only [greedy, hc, if_pos, List.mem_cons] at h
      rcases h with rfl | h
      · exact ⟨(sc, s), List.mem_cons_self _ _, rfl⟩
      · obtain ⟨q, hq, hqs⟩ := ih b (u + t.length) s h
        exact ⟨q, List.mem_cons_of_mem _ hq, hqs⟩
    · simp [greedy, hc] at h

theorem joinSpace_length :
    ∀ l : List (List Char), (joinSpace l).length ≤ sumLens l + (l.length - 1) := by
  intro l
  induction l with
  | nil => simp [joinSpace, sumLens]
  | cons s r ih =>
    cases r with
    | nil => simp [joinSpace, sumLens]
    | cons h t =>
      simp only [joinSpace, List.length_append, List.length_cons, sumLens,
        List.map_cons, List.sum_cons] at *
      omega

/-! ## Lemmas about the counter -/

/-- The total count of key `k` recorded in an items list. -/
def valIn (k : List Char) (acc : List (List Char × Nat)) : Nat :=
  ((acc.filter (fun q => decide (q.1 = k))).map Prod.snd).sum

theorem valIn_cons (k : List Char) (q : List Char × Nat) (t : List (List Char × Nat)) :
    valIn k (q :: t) = (if q.1 = k then q.2 else 0) + valIn k t := by
  by_cases h : q.1 = k <;> simp [valIn, h]

theorem valIn_bump (k w : List Char) :
    ∀ acc, valIn k (bump w acc) = valIn k acc + (if w = k then 1 else 0) := by
  intro acc
  induction acc with
  | nil =>
    by_cases h : w = k <;> simp [bump, valIn, h]
  | cons p t ih =>
    by_cases hpw : p.1 = w
    · simp only [bump, hpw, if_pos]
      rw [valIn_cons, valIn_cons]
      by_cases hk : w = k
      · rw [hpw]; simp [hk]; omega
      · rw [hpw]; simp [hk]
    · simp only [bump, hpw, if_neg, not_false_iff]
      rw [valIn_cons, valIn_cons, ih]
      omega

theorem valIn_of_not_mem (k : List Char) :
    ∀ acc : List (List Char × Nat), k ∉ acc.map Prod.fst → valIn k acc = 0 := by
  intro acc
  induction acc with
  | nil => intro _; rfl
  | cons q t ih =>
    intro h
    simp only [List.map_cons, List.mem_cons] at h
    push_neg at h
    rw [valIn_cons, ih h.2]
    simp [Ne.symm h.1]

theorem valIn_of_mem (p : List Char × Nat) :
    ∀ acc : List (List Char × Nat), (acc.map Prod.fst).Nodup → p ∈ acc →
      p.2 = valIn p.1 acc := by
  intro acc
  induction acc with
  | nil => intro _ h; exact absurd h (List.not_mem_nil p)
  | cons q t ih =>
    intro hnd hp
    simp only [List.map_cons, List.nodup_cons] at hnd
    rcases List.mem_cons.mp hp with rfl | hpt
    · rw [valIn_cons, valIn_of_not_mem p.1 t hnd.1]
      simp
    · have hne : q.1 ≠ p.1 := by
        intro he
        exact hnd.1 (he ▸ List.mem_map_of_mem Prod.fst hpt)
      rw [valIn_cons, ih hnd.2 hpt]
      simp [hne]

theorem bump_keys_of_mem (w : List Char) :
    ∀ acc : List (List Char × Nat), w ∈ acc.map Prod.fst →
      (bump w acc).map Prod.fst = acc.map Prod.fst := by
  intro acc
  induction acc with
  | nil => intro h; simp at h
  | cons p t ih =>
    intro h
    by_cases hpw : p.1 = w
    · simp [bump, hpw]
    · simp only [List.map_cons, List.mem_cons] at h
      rcases h with h | h
      · exact absurd h.symm hpw
      · simp [bump, hpw, ih h]

theorem bump_keys_of_not_mem (w : List Char) :
    ∀ acc : List (List Char × Nat), w ∉ acc.map Prod.fst →
      (bump w acc).map Prod.fst = acc.map Prod.fst ++ [w] := by
  intro acc
  induction acc with
  | nil => intro _; simp [bump]
  | cons p t ih =>
    intro h
    simp only [List.map_cons, List.mem_cons] at h
    push_neg at h
    simp [bump, Ne.symm h.1, ih h.2]

theorem counterFold_keys_nodup :
    ∀ (ws : List (List Char)) (acc : List (List Char × Nat)),
      (acc.map Prod.fst).Nodup →
      ((ws.foldl (fun a w => bump w a) acc).map Prod.fst).Nodup := by
  intro ws
  induction ws with
  | nil => intro acc h; simpa using h
  | cons w ws' ih =>
    intro acc h
    simp only [List.foldl_cons]
    apply ih
    by_cases hw : w ∈ acc.map Prod.fst
    · rw [bump_keys_of_mem w acc hw]; exact h
    · rw [bump_keys_of_not_mem w acc hw]
      simp [List.nodup_append, h, hw]

theorem counterItems_keys_nodup (ws : List (List Char)) :
    ((counterItems ws).map Prod.fst).Nodup :=
  counterFold_keys_nodup ws [] List.nodup_nil

theorem counterFold_val :
    ∀ (ws : List (List Char)) (acc : List (List Char × Nat)),
      (acc.map Prod.fst).Nodup →
      ∀ p ∈ ws.foldl (fun a w => bump w a) acc,
        p.2 = valIn p.1 acc + ws.count p.1 := by
  intro ws
  induction ws with
  | nil =>
    intro acc hnd p hp
    simpa using valIn_of_mem p acc hnd hp
  | cons w ws' ih =>
    intro acc hnd p hp
    simp only [List.foldl_cons] at hp
    have hnd' : ((bump w acc).map Prod.fst).Nodup := by
      by_cases hw : w ∈ acc.map Prod.fst
      · rw [bump_keys_of_mem w acc hw]; exact hnd
      · rw [bump_keys_of_not_mem w acc hw]
        simp [List.nodup_append, hnd, hw]
    have := ih (bump w acc) hnd' p hp
    rw [valIn_bump p.1 w acc] at this
    rw [this, List.count_cons]
    by_cases hwp : w = p.1
    · simp [hwp]; omega
    · simp [hwp, Ne.symm hwp]

theorem counterItems_count (ws : List (List Char)) :
    ∀ p ∈ counterItems ws, p.2 = ws.count p.1 := by
  intro p hp
  have := counterFold_val ws [] List.nodup_nil p hp
  simpa [valIn] using this

theorem counterFold_keys_from :
    ∀ (ws : List (List Char)) (acc : List (List Char × Nat)) (p : List Char × Nat),
      p ∈ ws.foldl (fun a w => bump w a) acc →
      p.1 ∈ acc.map Prod.fst ∨ p.1 ∈ ws := by
  intro ws
  induction ws with
  | nil =>
    intro acc p hp
    exact Or.inl (List.mem_map_of_mem Prod.fst hp)
  | cons w ws' ih =>
    intro acc p hp
    simp only [List.foldl_cons] at hp
    rcases ih (bump w acc) p hp with h | h
    · by_cases hw : w ∈ acc.map Prod.fst
      · rw [bump_keys_of_mem w acc hw] at h
        exact Or.inl h
      · rw [bump_keys_of_not_mem w acc hw] at h
        rcases List.mem_append.mp h with h | h
        · exact Or.inl h
        · simp only [List.mem_singleton] at h
          exact Or.inr (h ▸ List.mem_cons_self w ws')
    · exact Or.inr (List.mem_cons_of_mem w h)

theorem counterItems_keys_mem (ws : List (List Char)) (p : List Char × Nat)
    (hp : p ∈ counterItems ws) : p.1 ∈ ws := by
  rcases counterFold_keys_from ws [] p hp with h | h
  · simp at h
  · exact h

/-! ## Lemmas about trimming and segmentation -/

theorem head?_dropWhile (p : Char → Bool) :
    ∀ l : List Char, ∀ c, (l.dropWhile p).head? = some c → p c = false := by
  intro l
  induction l with
  | nil => intro c h; simp at h
  | cons a t ih =>
    intro c h
    by_cases hp : p a = true
    · rw [List.dropWhile_cons] at h
      rw [if_pos hp] at h
      exact ih c h
    · rw [List.dropWhile_cons] at h
      rw [if_neg hp] at h
      simp only [List.head?_cons, Option.some.injEq] at h
      subst h
      simpa using hp

theorem dropWhile_eq_self_of_head (p : Char → Bool) (l : List Char)
    (h : ∀ c, l.head? = some c → p c = false) : l.dropWhile p = l := by
  cases l with
  | nil => rfl
  | cons a t =>
    rw [List.dropWhile_cons, if_neg]
    simp [h a rfl]

theorem dropWhile_idem (p : Char → Bool) (l : List Char) :
    (l.dropWhile p).dropWhile p = l.dropWhile p :=
  dropWhile_eq_self_of_head p _ (head?_dropWhile p l)

theorem getLast?_dropWhile (p : Char → Bool) :
    ∀ l : List Char, l.dropWhile p ≠ [] →
      (l.dropWhile p).getLast? = l.getLast? := by
  intro l
  induction l with
  | nil => intro h; simp at h
  | cons a t ih =>
    intro h
    by_cases hp : p a = true
    · rw [List.dropWhile_cons, if_pos hp] at h ⊢
      have ht : t ≠ [] := by
        rintro rfl
        simp [List.dropWhile] at h
      rw [ih h]
      cases t with
      | nil => exact absurd rfl ht
      | cons b t' => rw [List.getLast?_cons_cons]
    · rw [List.dropWhile_cons, if_neg hp]

theorem pyStrip_idem (s : List Char) : pyStrip (pyStrip s) = pyStrip s := by
  unfold pyStrip
  set a := s.dropWhile isPySpace with ha
  set b := a.reverse.dropWhile isPySpace with hb
  by_cases hbe : b = []
  · simp [hbe]
  · have h1 : b.reverse.dropWhile isPySpace = b.reverse := by
      apply dropWhile_eq_self_of_head
      intro c hc
      rw [List.head?_reverse] at hc
      rw [hb, getLast?_dropWhile isPySpace a.reverse (hb ▸ hbe)] at hc
      rw [List.getLast?_reverse] at hc
      exact head?_dropWhile isPySpace s c (ha ▸ hc)
    rw [h1, List.reverse_reverse]
    have h2 : b.dropWhile isPySpace = b := by
      rw [hb]; exact dropWhile_idem _ _
    rw [h2]

theorem pyStrip_mem {c : Char} {s : List Char} (h : c ∈ pyStrip s) : c ∈ s := by
  unfold pyStrip at h
  rw [List.mem_reverse] at h
  have h2 := (List.dropWhile_sublist isPySpace).subset h
  rw [List.mem_reverse] at h2
  exact (List.dropWhile_sublist isPySpace).subset h2

theorem srGo_no_sep :
    ∀ (cs : List Char) (inSep : Bool) (cur : List Char),
      (∀ c ∈ cur, isSep c = false) →
      ∀ f ∈ srGo inSep cur cs, ∀ c ∈ f, isSep c = false := by
  intro cs
  induction cs with
  | nil =>
    intro inSep cur hcur f hf c hc
    simp only [srGo, List.mem_singleton] at hf
    subst hf
    exact hcur c (List.mem_reverse.mp hc)
  | cons a rest ih =>
    intro inSep cur hcur f hf c hc
    by_cases hsep : isSep a = true
    · cases inSep with
      | true =>
        have he : srGo true cur (a :: rest) = srGo true [] rest := by
          simp [srGo, hsep]
        rw [he] at hf
        exact ih true [] (by simp) f hf c hc
      | false =>
        have he : srGo false cur (a :: rest) = cur.reverse :: srGo true [] rest := by
          simp [srGo, hsep]
        rw [he] at hf
        rcases List.mem_cons.mp hf with rfl | hf
        · exact hcur c (List.mem_reverse.mp hc)
        · exact ih true [] (by simp) f hf c hc
    · have he : srGo inSep cur (a :: rest) = srGo false (a :: cur) rest := by
        simp [srGo, hsep]
      rw [he] at hf
      refine ih false (a :: cur) ?_ f hf c hc
      intro d hd
      rcases List.mem_cons.mp hd with rfl | hd
      · simpa using hsep
      · exact hcur d hd

theorem scoredOf_snd (t : List Char) : (scoredOf t).map Prod.snd = sentencesOf t := by
  simp [scoredOf, List.map_map, Function.comp_def]

theorem sentencesOf_length {t s : List Char} (h : s ∈ sentencesOf t) : 20 < s.length := by
  have := (List.mem_filter.mp h).2
  simpa using this

/-! ## Claim C1 — budget invariant of the selector -/

/-- C1 (counterexample): the claim that the joined summary string never
exceeds the budget (except via the fallback path) is false.  With budget
42 and two tied sentences of 21 characters each, both are selected
(21 + 21 ≤ 42) and the single joining space makes the output 43
characters long; the output is not the fallback. -/
theorem c1_counterexample :
    summarize ("aaaaaaaaaaaaaaaaaaaaa. bbbbbbbbbbbbbbbbbbbbb.".data) 42
        = ("bbbbbbbbbbbbbbbbbbbbb aaaaaaaaaaaaaaaaaaaaa".data)
      ∧ (summarize ("aaaaaaaaaaaaaaaaaaaaa. bbbbbbbbbbbbbbbbbbbbb.".data) 42).length = 43
      ∧ ¬ (summarize ("aaaaaaaaaaaaaaaaaaaaa. bbbbbbbbbbbbbbbbbbbbb.".data) 42).length ≤ 42
      ∧ summarize ("aaaaaaaaaaaaaaaaaaaaa. bbbbbbbbbbbbbbbbbbbbb.".data) 42
        ≠ (clean ("aaaaaaaaaaaaaaaaaaaaa. bbbbbbbbbbbbbbbbbbbbb.".data)).take 42 ++ ['…'] := by
  refine ⟨by decide, by decide, by decide, by decide⟩

/-- C1 (amended): for every budget B and every finite sequence of
(score, text) pairs, the total character length of the sentences chosen
by the selector — not counting the joining spaces — never exceeds B, and
the joined summary string exceeds B by at most one character per
separator, i.e. by (number of chosen sentences − 1). -/
theorem c1_amended :
    ∀ (pairs : List (Nat × List Char)) (b : Nat),
      sumLens (greedy (sortPD pairs) b 0) ≤ b
        ∧ (selectJoin pairs b).length ≤ b + ((greedy (sortPD pairs) b 0).length - 1) := by
  intro pairs b
  have h1 := greedy_sum_le (sortPD pairs) b 0 (Nat.zero_le b)
  have h2 := joinSpace_length (greedy (sortPD pairs) b 0)
  simp only [selectJoin]
  omega

/-- C1 (amended, witness): the amended bound evaluated on the
counterexample input's score list with budget 42. -/
theorem c1_amended_witness :
    sumLens (greedy (sortPD [(1, ("aaaaaaaaaaaaaaaaaaaaa".data)), (1, ("bbbbbbbbbbbbbbbbbbbbb".data))]) 42 0) ≤ 42
      ∧ (selectJoin [(1, ("aaaaaaaaaaaaaaaaaaaaa".data)), (1, ("bbbbbbbbbbbbbbbbbbbbb".data))] 42).length
        ≤ 42 + ((greedy (sortPD [(1, ("aaaaaaaaaaaaaaaaaaaaa".data)), (1, ("bbbbbbbbbbbbbbbbbbbbb".data))]) 42 0).length - 1) :=
  c1_amended [(1, ("aaaaaaaaaaaaaaaaaaaaa".data)), (1, ("bbbbbbbbbbbbbbbbbbbbb".data))] 42

/-! ## Claim C2 — the empty-document case -/

/-- C2 (counterexample): on the empty input the summary is the fallback
message and `original_words` is 0 as claimed, but the compression metric
is `len(summary)/max(len(original),1) = 36/1`, which formats as
`"3600.0%"`, not `"0.0%"`. -/
theorem c2_counterexample :
    summarize ([] : List Char) 450 = noSentencesMsg
      ∧ (findWords ([] : List Char)).length = 0
      ∧ compressionOf [] = ("3600.0%".data)
      ∧ compressionOf [] ≠ ("0.0%".data) := by
  refine ⟨by decide, by decide, by decide, by decide⟩

/-- C2 (amended): for the empty input the pipeline produces
summary = "Nothing to summarize after cleaning.",
`metrics.original_words = 0`, and compression `"3600.0%"` — the value of
`len(summary)/max(len(original),1)` (36/1) formatted as a percentage
with one decimal place. -/
theorem c2_amended_thm :
    summarize ([] : List Char) 450 = noSentencesMsg
      ∧ (findWords ([] : List Char)).length = 0
      ∧ compressionOf [] = ("3600.0%".data) := by
  refine ⟨by decide, by decide, by decide⟩

/-! ## Claim C5 — keyword strategy scoring -/

/-- C5: under the keyword strategy, the common set consists exactly of
the members of the 20 most frequent word tokens of the clean document
that are longer than 4 characters; each sentence receives as score the
number of common-set tokens whose first 5 characters occur as a
substring of the lowercased sentence; and exactly one score is produced
per sentence, in input order. -/
theorem c5_keyword_scoring :
    ∀ t : List Char,
      (∀ w : List Char, w ∈ commonOf t ↔
        ((∃ p ∈ mostCommon 20 (counterItems (docWords t)), p.1 = w) ∧ 4 < w.length))
      ∧ (scoredOf t).map Prod.snd = sentencesOf t
      ∧ (∀ p ∈ scoredOf t,
          p.1 = ((commonOf t).filter (fun w => isSubstr (w.take 5) (lowerL p.2))).length) := by
  intro t
  refine ⟨?_, scoredOf_snd t, ?_⟩
  · intro w
    simp only [commonOf, List.mem_filterMap]
    constructor
    · rintro ⟨p, hp, hpw⟩
      by_cases h4 : 4 < p.1.length
      · rw [if_pos h4] at hpw
        cases hpw
        exact ⟨⟨p, hp, rfl⟩, h4⟩
      · rw [if_neg h4] at hpw
        cases hpw
    · rintro ⟨⟨p, hp, rfl⟩, h4⟩
      exact ⟨p, hp, by rw [if_pos h4]⟩
  · intro p hp
    simp only [scoredOf, List.mem_map] at hp
    obtain ⟨s, _, rfl⟩ := hp
    rfl

/-- C5 (witness): the scoring characterization evaluated on a concrete
document. -/
theorem c5_witness :
    (∀ w : List Char, w ∈ commonOf ("Alpha beta gamma delta epsilon words here today. Gamma delta epsilon again with more beta alpha.".data) ↔
      ((∃ p ∈ mostCommon 20 (counterItems (docWords ("Alpha beta gamma delta epsilon words here today. Gamma delta epsilon again with more beta alpha.".data))), p.1 = w) ∧ 4 < w.length))
    ∧ (scoredOf ("Alpha beta gamma delta epsilon words here today. Gamma delta epsilon again with more beta alpha.".data)).map Prod.snd
      = sentencesOf ("Alpha beta gamma delta epsilon words here today. Gamma delta epsilon again with more beta alpha.".data)
    ∧ (∀ p ∈ scoredOf ("Alpha beta gamma delta epsilon words here today. Gamma delta epsilon again with more beta alpha.".data),
        p.1 = ((commonOf ("Alpha beta gamma delta epsilon words here today. Gamma delta epsilon again with more beta alpha.".data)).filter
          (fun w => isSubstr (w.take 5) (lowerL p.2))).length) :=
  c5_keyword_scoring ("Alpha beta gamma delta epsilon words here today. Gamma delta epsilon again with more beta alpha.".data)

/-! ## Claim C6 — edge cases of the selector -/

/-- C6: if segmentation is empty the summarizer returns the literal
message "Nothing to summarize after cleaning."; if sentences exist but
greedy selection chooses nothing, it returns the first `budget`
characters of the clean text followed by the ellipsis marker, never the
empty string. -/
theorem c6_edge_cases :
    ∀ (t : List Char) (m : Nat),
      (sentencesOf t = [] → summarize t m = noSentencesMsg)
      ∧ (sentencesOf t ≠ [] → greedy (sortPD (scoredOf t)) m 0 = [] →
          (summarize t m = (clean t).take m ++ ['…'] ∧ summarize t m ≠ [])) := by
  intro t m
  constructor
  · intro h
    simp [summarize, h]
  · intro hne hg
    have hj : selectJoin (scoredOf t) m = [] := by
      simp [selectJoin, hg, joinSpace]
    refine ⟨by simp [summarize, hne, hj], ?_⟩
    simp only [summarize, hne, if_neg, hj, if_pos]
    simp

/-- C6 (witness): both edge cases evaluated — the empty document yields
the literal message, and a 21-character sentence with budget 0 yields
the ellipsis fallback. -/
theorem c6_witness :
    summarize ([] : List Char) 450 = noSentencesMsg
      ∧ (summarize ("aaaaaaaaaaaaaaaaaaaaa.".data) 0
          = (clean ("aaaaaaaaaaaaaaaaaaaaa.".data)).take 0 ++ ['…']
        ∧ summarize ("aaaaaaaaaaaaaaaaaaaaa.".data) 0 ≠ []) :=
  ⟨(c6_edge_cases [] 450).1 (by decide),
   (c6_edge_cases ("aaaaaaaaaaaaaaaaaaaaa.".data) 0).2 (by decide) (by decide)⟩

/-! ## Claim C7 — determinism and deterministic tie order -/

/-- C7: the pipeline is deterministic — identical inputs produce
identical summary, tags and metrics — and the descending sort places the
scored sentences in a deterministic order: the ranked list is a
permutation of the scored list, pairwise non-increasing under the tuple
order (score first, then sentence text), so equal-score sentences get a
deterministic, not necessarily original, relative order. -/
theorem c7_determinism :
    ∀ (t t' : List Char), t = t' →
      runAll t = runAll t'
      ∧ List.Perm (sortPD (scoredOf t)) (scoredOf t)
      ∧ List.Pairwise (fun a b => pairLe b a = true) (sortPD (scoredOf t)) := by
  intro t t' ht
  exact ⟨ht ▸ rfl, sortBy_perm pairLe (scoredOf t),
    sortBy_pairwise pairLe pairLe_total pairLe_trans (scoredOf t)⟩

/-- C7 (witness): determinism and ranking order evaluated on a concrete
input. -/
theorem c7_witness :
    runAll ("Determinism determinism check sentence one. Determinism check sentence two again.".data)
      = runAll ("Determinism determinism check sentence one. Determinism check sentence two again.".data)
    ∧ List.Perm (sortPD (scoredOf ("Determinism determinism check sentence one. Determinism check sentence two again.".data)))
        (scoredOf ("Determinism determinism check sentence one. Determinism check sentence two again.".data))
    ∧ List.Pairwise (fun a b => pairLe b a = true)
        (sortPD (scoredOf ("Determinism determinism check sentence one. Determinism check sentence two again.".data))) :=
  c7_determinism _ _ rfl

/-! ## Claim C10 — the summary is never empty -/

/-- C10: for every input and budget, `summarize` returns a non-empty
string: either the literal no-sentences message, or a space-join of a
non-empty selection of sentences each longer than 20 characters, or the
clean-text prefix fallback ending in the ellipsis character. -/
theorem c10_nonempty :
    ∀ (t : List Char) (m : Nat),
      summarize t m ≠ []
      ∧ (summarize t m = noSentencesMsg
        ∨ (∃ ch, ch ≠ [] ∧ (∀ s ∈ ch, 20 < s.length) ∧ summarize t m = joinSpace ch)
        ∨ summarize t m = (clean t).take m ++ ['…']) := by
  intro t m
  by_cases hs : sentencesOf t = []
  · have h : summarize t m = noSentencesMsg := by simp [summarize, hs]
    exact ⟨by rw [h]; decide, Or.inl h⟩
  · by_cases hj : selectJoin (scoredOf t) m = []
    · have h : summarize t m = (clean t).take m ++ ['…'] := by
        simp [summarize, hs, hj]
      refine ⟨?_, Or.inr (Or.inr h)⟩
      rw [h]
      simp
    · have h : summarize t m = selectJoin (scoredOf t) m := by
        simp [summarize, hs, hj]
      refine ⟨by rw [h]; exact hj, Or.inr (Or.inl ?_)⟩
      refine ⟨greedy (sortPD (scoredOf t)) m 0, ?_, ?_, by rw [h]; rfl⟩
      · intro hg
        exact hj (by simp [selectJoin, hg, joinSpace])
      · intro s hsm
        obtain ⟨p, hp, rfl⟩ := greedy_mem _ _ _ _ hsm
        have hp2 : p ∈ scoredOf t :=
          (sortBy_perm pairLe (scoredOf t)).mem_iff.mp hp
        simp only [scoredOf, List.mem_map] at hp2
        obtain ⟨s', hs', he⟩ := hp2
        have hps : p.2 = s' := by rw [← he]
        rw [hps]
        exact sentencesOf_length hs'

/-- C10 (witness): non-emptiness and the output disjunction evaluated on
a concrete input and budget. -/
theorem c10_witness :
    summarize ("aaaaaaaaaaaaaaaaaaaaa. bbbbbbbbbbbbbbbbbbbbb.".data) 30 ≠ []
    ∧ (summarize ("aaaaaaaaaaaaaaaaaaaaa. bbbbbbbbbbbbbbbbbbbbb.".data) 30 = noSentencesMsg
      ∨ (∃ ch, ch ≠ [] ∧ (∀ s ∈ ch, 20 < s.length)
          ∧ summarize ("aaaaaaaaaaaaaaaaaaaaa. bbbbbbbbbbbbbbbbbbbbb.".data) 30 = joinSpace ch)
      ∨ summarize ("aaaaaaaaaaaaaaaaaaaaa. bbbbbbbbbbbbbbbbbbbbb.".data) 30
        = (clean ("aaaaaaaaaaaaaaaaaaaaa. bbbbbbbbbbbbbbbbbbbbb.".data)).take 30 ++ ['…']) :=
  c10_nonempty ("aaaaaaaaaaaaaaaaaaaaa. bbbbbbbbbbbbbbbbbbbbb.".data) 30

/-! ## Claim C4 — idempotence of normalization -/

/-- C4 (counterexample): the input `[a]` + backtick + `(b)` contains no
frontmatter block, no markdown link and no citation/URL/doi record
(stages 1-3 leave it unchanged), yet normalization is not idempotent on
it: stripping the backtick creates a link that the second pass
rewrites. -/
theorem c4_counterexample :
    (removeFrontmatter ("[a]\x60(b)".data) = ("[a]\x60(b)".data)
      ∧ linkScan ("[a]\x60(b)".data) = ("[a]\x60(b)".data)
      ∧ noiseScan ("[a]\x60(b)".data) = ("[a]\x60(b)".data))
    ∧ clean (clean ("[a]\x60(b)".data)) ≠ clean ("[a]\x60(b)".data) := by
  exact ⟨⟨by decide, by decide, by decide⟩, by decide⟩

/-- C4 (amended): normalization is idempotent on every input left
unchanged by each individual stage — frontmatter removal, link
rewriting, citation/URL/doi removal, image removal, symbol stripping,
Table/Figure line removal, references cutoff, and trimming.  (Freedom
from frontmatter, links and citations alone is not sufficient, as the
counterexample shows.) -/
theorem c4_amended :
    ∀ x : List Char,
      removeFrontmatter x = x → linkScan x = x → noiseScan x = x → imgScan x = x →
      stripSymbols x = x → tfScan x = x → refCut x = x → pyStrip x = x →
      clean (clean x) = clean x := by
  intro x h1 h2 h3 h4 h5 h6 h7 h8
  have hx : clean x = x := by
    simp [clean, h1, h2, h3, h4, h5, h6, h7, h8]
  rw [hx, hx]

/-- C4 (amended, witness): idempotence on a concrete fully-normalized
input, with every stage hypothesis discharged by evaluation. -/
theorem c4_amended_witness :
    clean (clean ("Hello world, a plain test sentence".data))
      = clean ("Hello world, a plain test sentence".data) :=
  c4_amended ("Hello world, a plain test sentence".data)
    (by decide) (by decide) (by decide) (by decide)
    (by decide) (by decide) (by decide) (by decide)

/-! ## Claim C3 — what the frontmatter stage actually removes -/

/-- Line-start state reached after scanning the characters of `s`,
starting from state `b`. -/
def lastNl : List Char → Bool → Bool
  | [], b => b
  | c :: s, _ => lastNl s (c == '\n')

theorem hasDashes3_false {c : Char} (h : c ≠ '-') (l : List Char) :
    hasDashes3 (c :: l) = false := by
  cases l with
  | nil => rfl
  | cons b t =>
    cases t with
    | nil => rfl
    | cons d t' => simp [hasDashes3, beq_iff_eq, h]

theorem hasDashes3_length {l : List Char} (h : hasDashes3 l = true) : 3 ≤ l.length := by
  match l, h with
  | a :: b :: c :: t, _ => simp only [List.length_cons]; omega

theorem closeSearch_length :
    ∀ l r : List Char, closeSearch l = some r → r.length + 3 ≤ l.length := by
  intro l
  induction l with
  | nil => intro r h; simp [closeSearch] at h
  | cons a t ih =>
    intro r h
    by_cases hd : hasDashes3 (a :: t) = true
    · rw [closeSearch, if_pos hd] at h
      have h3 := hasDashes3_length hd
      simp only [Option.some.injEq] at h
      subst h
      rw [List.length_drop]
      omega
    · rw [closeSearch, if_neg hd] at h
      have := ih r h
      simp only [List.length_cons]
      omega

theorem dropAfterClose_length :
    ∀ l r : List Char, dropAfterClose l = some r → r.length + 4 ≤ l.length := by
  intro l r h
  cases l with
  | nil => simp [dropAfterClose] at h
  | cons c t =>
    simp only [dropAfterClose] at h
    have := closeSearch_length t r h
    simp only [List.length_cons]
    omega

theorem rfGoF_fuel :
    ∀ (f g : Nat) (b : Bool) (cs : List Char), cs.length ≤ f → cs.length ≤ g →
      rfGoF f b cs = rfGoF g b cs := by
  intro f
  induction f with
  | zero =>
    intro g b cs hf _
    have : cs = [] := List.length_eq_zero.mp (Nat.le_zero.mp hf)
    subst this
    cases g <;> rfl
  | succ f ih =>
    intro g b cs hf hg
    cases cs with
    | nil => cases g <;> rfl
    | cons c rest =>
      cases g with
      | zero => simp at hg
      | succ g' =>
        simp only [rfGoF]
        by_cases hc : (b && hasDashes3 (c :: rest)) = true
        · rw [if_pos hc, if_pos hc]
          cases hdac : dropAfterClose ((c :: rest).drop 3) with
          | none =>
            simp only [hdac]
            have hr : rest.length ≤ f := by simp at hf; omega
            have hr' : rest.length ≤ g' := by simp at hg; omega
            rw [ih g' (c == '\n') rest hr hr']
          | some rem =>
            simp only [hdac]
            have hlen := dropAfterClose_length _ _ hdac
            rw [List.length_drop, List.length_cons] at hlen
            simp only [List.length_cons] at hf hg
            rw [ih g' false rem (by omega) (by omega)]
        · rw [if_neg hc, if_neg hc]
          have hr : rest.length ≤ f := by simp at hf; omega
          have hr' : rest.length ≤ g' := by simp at hg; omega
          rw [ih g' (c == '\n') rest hr hr']

theorem rfGoF_copy :
    ∀ (s : List Char) (f : Nat) (b : Bool) (rest : List Char),
      (∀ c ∈ s, c ≠ '-') → (s ++ rest).length ≤ f →
      rfGoF f b (s ++ rest) = s ++ rfGoF (f - s.length) (lastNl s b) rest := by
  intro s
  induction s with
  | nil => intro f b rest _ _; simp [lastNl]
  | cons c s' ih =>
    intro f b rest hnd hf
    cases f with
    | zero => simp at hf
    | succ f' =>
      have hc : c ≠ '-' := hnd c (List.mem_cons_self c s')
      have hd3 : hasDashes3 (c :: (s' ++ rest)) = false := hasDashes3_false hc _
      rw [List.cons_append]
      simp only [rfGoF]
      rw [if_neg (by simp [hd3])]
      have harith : f' + 1 - (c :: s').length = f' - s'.length := by
        simp only [List.length_cons]
        omega
      rw [harith]
      have hlast : lastNl (c :: s') b = lastNl s' (c == '\n') := rfl
      rw [hlast]
      rw [ih f' (c == '\n') rest (fun d hd => hnd d (List.mem_cons_of_mem c hd))
        (by simp at hf ⊢; omega)]
      rfl

theorem lastNl_append_nl : ∀ (s : List Char) (b : Bool), lastNl (s ++ ['\n']) b = true := by
  intro s
  induction s with
  | nil => intro _; rfl
  | cons c s' ih => intro b; exact ih (c == '\n')

theorem closeSearch_append {t : List Char} (h : ∀ c ∈ t, c ≠ '-') (u : List Char) :
    closeSearch (t ++ '-' :: '-' :: '-' :: u) = some u := by
  induction t with
  | nil => simp [closeSearch, hasDashes3]
  | cons c t' ih =>
    have hc : c ≠ '-' := h c (List.mem_cons_self c t')
    have hd3 : hasDashes3 (c :: (t' ++ '-' :: '-' :: '-' :: u)) = false := hasDashes3_false hc _
    rw [List.cons_append, closeSearch, if_neg (by simp [hd3])]
    exact ih (fun d hd => h d (List.mem_cons_of_mem c hd))

theorem dropAfterClose_append {t : List Char} (hne : t ≠ []) (h : ∀ c ∈ t, c ≠ '-')
    (u : List Char) : dropAfterClose (t ++ '-' :: '-' :: '-' :: u) = some u := by
  cases t with
  | nil => exact absurd rfl hne
  | cons c t' =>
    rw [List.cons_append, dropAfterClose]
    exact closeSearch_append (fun d hd => h d (List.mem_cons_of_mem c hd)) u

theorem rfGoF_block {t u : List Char} (hne : t ≠ []) (h : ∀ c ∈ t, c ≠ '-') :
    ∀ g : Nat, u.length + 1 ≤ g →
      rfGoF (g + 1) true ('-' :: '-' :: '-' :: (t ++ '-' :: '-' :: '-' :: u))
        = rfScan false u := by
  intro g hg
  simp only [rfGoF]
  rw [if_pos (by simp [hasDashes3])]
  have hdrop : (('-' :: '-' :: '-' :: (t ++ '-' :: '-' :: '-' :: u)) :
      List Char).drop 3 = t ++ '-' :: '-' :: '-' :: u := rfl
  rw [hdrop, dropAfterClose_append hne h u]
  rw [rfScan]
  exact rfGoF_fuel g (u.length + 1) false u (by omega) (by omega)

/-- C3 (counterexample): the frontmatter stage is not restricted to a
single leading block.  On `"abc\n---x---"` — whose `---` block is not at
the start of the document — the stage removes the block, leaving
`"abc\n"`. -/
theorem c3_counterexample :
    removeFrontmatter ("abc\n---x---".data) = ("abc\n".data)
      ∧ removeFrontmatter ("abc\n---x---".data) ≠ ("abc\n---x---".data) := by
  exact ⟨by decide, by decide⟩

/-- C3 (amended): the frontmatter stage removes every block that begins
with `---` at the start of any line — including the document start — and
extends to the next `---`, which need not stand on a line of its own;
scanning then continues after the removed block, so subsequent blocks
are removed as well.  `s` is a dash-free prefix ending at a newline,
`t` the dash-free block body, `u` the arbitrary remainder. -/
theorem c3_amended :
    ∀ (s t u : List Char), (∀ c ∈ s, c ≠ '-') → (∀ c ∈ t, c ≠ '-') → t ≠ [] →
      removeFrontmatter ('-' :: '-' :: '-' :: (t ++ '-' :: '-' :: '-' :: u))
          = rfScan false u
      ∧ removeFrontmatter (s ++ '\n' :: '-' :: '-' :: '-' :: (t ++ '-' :: '-' :: '-' :: u))
          = s ++ '\n' :: rfScan false u := by
  intro s t u hs ht hne
  constructor
  · rw [removeFrontmatter, rfScan]
    have : ('-' :: '-' :: '-' :: (t ++ '-' :: '-' :: '-' :: u)).length
        = (t ++ '-' :: '-' :: '-' :: u).length + 3 := by simp
    rw [this]
    exact rfGoF_block hne ht ((t ++ '-' :: '-' :: '-' :: u).length + 3)
      (by simp only [List.length_append, List.length_cons]; omega)
  · rw [removeFrontmatter, rfScan]
    have hassoc : s ++ '\n' :: '-' :: '-' :: '-' :: (t ++ '-' :: '-' :: '-' :: u)
        = (s ++ ['\n']) ++ ('-' :: '-' :: '-' :: (t ++ '-' :: '-' :: '-' :: u)) := by
      simp
    rw [hassoc]
    have hp : ∀ c ∈ s ++ ['\n'], c ≠ '-' := by
      intro c hc
      rcases List.mem_append.mp hc with hc | hc
      · exact hs c hc
      · simp only [List.mem_singleton] at hc
        subst hc
        decide
    rw [rfGoF_copy (s ++ ['\n']) _ true _ hp (by omega)]
    rw [lastNl_append_nl]
    have harith : ((s ++ ['\n']) ++ ('-' :: '-' :: '-' :: (t ++ '-' :: '-' :: '-' :: u))).length + 1
          - (s ++ ['\n']).length
        = ('-' :: '-' :: '-' :: (t ++ '-' :: '-' :: '-' :: u)).length + 1 := by
      simp only [List.length_append, List.length_cons, List.length_singleton]
      omega
    rw [harith]
    have hlen : ('-' :: '-' :: '-' :: (t ++ '-' :: '-' :: '-' :: u)).length
        = (t ++ '-' :: '-' :: '-' :: u).length + 3 := by simp
    rw [hlen]
    rw [rfGoF_block hne ht ((t ++ '-' :: '-' :: '-' :: u).length + 3)
      (by simp only [List.length_append, List.length_cons]; omega)]
    simp

/-- C3 (amended, witness): a non-leading block `---x---` inside
`"ab\n---x---tl"` is removed, with scanning continuing on `"tl"`. -/
theorem c3_amended_witness :
    removeFrontmatter ('-' :: '-' :: '-' :: (("x".data) ++ '-' :: '-' :: '-' :: ("tl".data)))
        = rfScan false ("tl".data)
      ∧ removeFrontmatter (("ab".data) ++ '\n' :: '-' :: '-' :: '-' :: (("x".data) ++ '-' :: '-' :: '-' :: ("tl".data)))
        = ("ab".data) ++ '\n' :: rfScan false ("tl".data) :=
  c3_amended ("ab".data) ("x".data) ("tl".data) (by decide) (by decide) (by decide)

/-! ## Claim C9 — the sentence segmenter -/

/-- C9: the segmenter splits on runs of `.`, `!`, `?` (so no fragment
contains a separator), trims each fragment, discards fragments of
trimmed length ≤ 20, preserves source order (the result is a sublist of
the trimmed fragment sequence), and maps the empty input to the empty
sequence. -/
theorem c9_segmenter :
    ∀ cs : List Char,
      segment ([] : List Char) = []
      ∧ List.Sublist (segment cs) ((splitRuns cs).map pyStrip)
      ∧ (∀ s ∈ segment cs,
          20 < s.length ∧ pyStrip s = s ∧ (∀ c ∈ s, isSep c = false)) := by
  intro cs
  refine ⟨rfl, List.filter_sublist _, ?_⟩
  intro s hs
  have hlen : 20 < s.length := by
    have := (List.mem_filter.mp hs).2
    simpa using this
  have hmem := (List.mem_filter.mp hs).1
  obtain ⟨f, hf, rfl⟩ := List.mem_map.mp hmem
  refine ⟨hlen, pyStrip_idem f, ?_⟩
  intro c hc
  exact srGo_no_sep cs false [] (by simp) f hf c (pyStrip_mem hc)

/-- C9 (witness): the segmenter properties evaluated on a concrete
input with two sentences and a short discarded fragment. -/
theorem c9_witness :
    segment ([] : List Char) = []
    ∧ List.Sublist (segment ("A first viable sentence here! tiny. second usable sentence follows?".data))
        ((splitRuns ("A first viable sentence here! tiny. second usable sentence follows?".data)).map pyStrip)
    ∧ (∀ s ∈ segment ("A first viable sentence here! tiny. second usable sentence follows?".data),
        20 < s.length ∧ pyStrip s = s ∧ (∀ c ∈ s, isSep c = false)) :=
  c9_segmenter ("A first viable sentence here! tiny. second usable sentence follows?".data)

/-! ## Claim C8 — the tag extractor -/

/-- C8: for every input and `topN`, the tag list has no duplicates, has
length at most `topN`, contains only lowercased word tokens longer
than 3 characters that are not stop words, and is ordered by frequency
(highest first) with ties kept in first-encountered order: the ranked
items are pairwise non-increasing in count, every recorded count is the
token's frequency among the candidates, and any two equal-count entries
keep their order from the (first-occurrence-ordered) counter. -/
theorem c8_tag_properties :
    ∀ (text : List Char) (top : Nat),
      tag text top
          = ((sortBy countLe (counterItems (tagCandidates text))).take top).map Prod.fst
      ∧ (tag text top).Nodup
      ∧ (tag text top).length ≤ top
      ∧ (∀ w ∈ tag text top,
          w ∈ findWords (lowerL text) ∧ 3 < w.length ∧ stopWords.contains w = false)
      ∧ (∀ p ∈ counterItems (tagCandidates text), p.2 = (tagCandidates text).count p.1)
      ∧ List.Pairwise (fun a b => b.2 ≤ a.2) (sortBy countLe (counterItems (tagCandidates text)))
      ∧ (∀ a b : List Char × Nat, a.2 = b.2 →
          List.Sublist [a, b] (counterItems (tagCandidates text)) →
          List.Sublist [a, b] (sortBy countLe (counterItems (tagCandidates text)))) := by
  intro text top
  have hperm := sortBy_perm countLe (counterItems (tagCandidates text))
  have hkeysnd : ((counterItems (tagCandidates text)).map Prod.fst).Nodup :=
    counterItems_keys_nodup _
  have hsortnd : ((sortBy countLe (counterItems (tagCandidates text))).map Prod.fst).Nodup :=
    (List.Perm.nodup_iff (List.Perm.map Prod.fst hperm)).mpr hkeysnd
  refine ⟨rfl, ?_, ?_, ?_, ?_, ?_, ?_⟩
  · show (((sortBy countLe (counterItems (tagCandidates text))).take top).map Prod.fst).Nodup
    exact List.Nodup.sublist
      (List.Sublist.map Prod.fst (List.take_sublist top _)) hsortnd
  · show (((sortBy countLe (counterItems (tagCandidates text))).take top).map Prod.fst).length ≤ top
    rw [List.length_map, List.length_take]
    omega
  · intro w hw
    simp only [tag, mostCommon, List.mem_map] at hw
    obtain ⟨p, hp, rfl⟩ := hw
    have hp2 : p ∈ counterItems (tagCandidates text) :=
      hperm.mem_iff.mp ((List.take_sublist top _).subset hp)
    have hcand : p.1 ∈ tagCandidates text := counterItems_keys_mem _ p hp2
    obtain ⟨hmem, hpred⟩ := List.mem_filter.mp hcand
    simp only [Bool.and_eq_true, Bool.not_eq_true', decide_eq_true_eq] at hpred
    exact ⟨hmem, hpred.2, hpred.1⟩
  · intro p hp
    exact counterItems_count _ p hp
  · have hpw := sortBy_pairwise countLe countLe_total countLe_trans
      (counterItems (tagCandidates text))
    exact hpw.imp (fun h => by simpa [countLe] using h)
  · intro a b hab hsub
    exact sortBy_stable countLe (by simp [countLe, hab]) _ hsub

/-- C8 (witness): the tag-extractor properties evaluated on a concrete
input containing repeats, stop words and short tokens. -/
theorem c8_witness :
    tag ("tagger tagger tags system system system other the into a ab abc abcd".data) 3
        = ((sortBy countLe (counterItems (tagCandidates ("tagger tagger tags system system system other the into a ab abc abcd".data)))).take 3).map Prod.fst
    ∧ (tag ("tagger tagger tags system system system other the into a ab abc abcd".data) 3).Nodup
    ∧ (tag ("tagger tagger tags system system system other the into a ab abc abcd".data) 3).length ≤ 3
    ∧ (∀ w ∈ tag ("tagger tagger tags system system system other the into a ab abc abcd".data) 3,
        w ∈ findWords (lowerL ("tagger tagger tags system system system other the into a ab abc abcd".data))
          ∧ 3 < w.length ∧ stopWords.contains w = false)
    ∧ (∀ p ∈ counterItems (tagCandidates ("tagger tagger tags system system system other the into a ab abc abcd".data)),
        p.2 = (tagCandidates ("tagger tagger tags system system system other the into a ab abc abcd".data)).count p.1)
    ∧ List.Pairwise (fun a b => b.2 ≤ a.2)
        (sortBy countLe (counterItems (tagCandidates ("tagger tagger tags system system system other the into a ab abc abcd".data))))
    ∧ (∀ a b : List Char × Nat, a.2 = b.2 →
        List.Sublist [a, b] (counterItems (tagCandidates ("tagger tagger tags system system system other the into a ab abc abcd".data))) →
        List.Sublist [a, b] (sortBy countLe (counterItems (tagCandidates ("tagger tagger tags system system system other the into a ab abc abcd".data))))) :=
  c8_tag_properties ("tagger tagger tags system system system other the into a ab abc abcd".data) 3

end FleaHive
